import Mathlib

/-!
Shallow embedding of `src/gendata/main.py` (cluster sampler and haversine
distance engine) and verification of the specification's claims about it.

Modelling conventions:
* numpy float64 arrays become `List ℝ`; exact real arithmetic stands in for
  floating point (the spec promises only numerical closeness, not
  bit-exactness).
* `np.linspace(0, p, k+1)` has exact value `j * p / k` at index `j`; the
  partition arithmetic is modelled over `ℚ` with `Int.floor` mirroring
  `np.floor(...).astype(int)`.
* the process-wide random source becomes explicit arguments: cluster centers
  `phisCenter, thetasCenter : ℕ → ℝ` and perturbation draws
  `phiDraw, thetaDraw : ℕ → ℕ → ℕ → ℝ` (cluster index, row, column),
  standing for the `np.random.uniform` outputs.
* numpy elementwise binary operations on 1-d arrays follow the broadcasting
  rule: equal lengths act pointwise, a length-1 operand is broadcast, and any
  other length mismatch raises — modelled as `Option`.
-/

namespace Gendata

/-- Value of `np.floor(np.linspace(0, p, k + 1))[j]` in exact arithmetic:
the linspace entry is `j * p / k`. Mirrors lines 71-73 of the source. -/
def linspaceFloor (p k j : ℕ) : ℤ :=
  ⌊((j : ℚ) * p / k)⌋

/-- `np.diff(np.floor(np.linspace(0, n_pairs, n_clusters + 1))).astype(int)`:
the per-cluster pair counts of `generate_pairs`. -/
def nPairsPerCluster (p k : ℕ) : List ℤ :=
  (List.range k).map fun i => linspaceFloor p k (i + 1) - linspaceFloor p k i

/-- The cluster indices the `for i in range(n_clusters - 1)` loop of
`generate_pairs` actually samples from, after the reassignment
`n_clusters = 2 if n_clusters == 1 else n_clusters` (lines 76 and 83). -/
def sampledClusters (k : ℕ) : List ℕ :=
  List.range ((if k = 1 then 2 else k) - 1)

noncomputable section

/-- `np.radians`: degrees to radians. -/
def radians (x : ℝ) : ℝ :=
  x * (Real.pi / 180)

/-- `np.clip(x, lo, hi)` for `lo ≤ hi`. -/
def clip (x lo hi : ℝ) : ℝ :=
  min (max x lo) hi

/-- A numpy elementwise binary operation on two 1-d arrays: pointwise on
equal lengths, a length-1 operand broadcasts, any other mismatch raises. -/
def bcast (f : ℝ → ℝ → ℝ) (xs ys : List ℝ) : Option (List ℝ) :=
  if xs.length = ys.length then some (List.zipWith f xs ys)
  else if xs.length = 1 then some (ys.map fun y => f xs.headI y)
  else if ys.length = 1 then some (xs.map fun x => f x ys.headI)
  else none

/-- `generate_cluster(n_pairs, phi, theta, dphi, dtheta)` (lines 13-46):
adds the uniform draws (given here as `phiDraw`/`thetaDraw`, row by row and
column by column) to the center and clips longitudes to `[-180, 180]` and
latitudes to `[-90, 90]`. Returns the `(n, 2)` longitude rows and the
`(n, 2)` latitude rows. The deviation bounds only parameterise the random
draws, so they do not appear in the body. -/
def generate_cluster (n : ℕ) (phi theta _dphi _dtheta : ℝ)
    (phiDraw thetaDraw : ℕ → ℕ → ℝ) : List (ℝ × ℝ) × List (ℝ × ℝ) :=
  ((List.range n).map fun j =>
      (clip (phi + phiDraw j 0) (-180) 180, clip (phi + phiDraw j 1) (-180) 180),
   (List.range n).map fun j =>
      (clip (theta + thetaDraw j 0) (-90) 90, clip (theta + thetaDraw j 1) (-90) 90))

/-- `generate_pairs(n_pairs, n_clusters)` (lines 49-95): partitions the pair
count, fixes the deviation bounds `dphi = 360 / n_clusters` and
`dtheta = 180 / n_clusters`, then samples `generate_cluster` for each index
in `sampledClusters n_clusters` and stacks the results. The random source is
passed explicitly (`phisCenter`, `thetasCenter` for the centers; `phiDraw`,
`thetaDraw` for the per-cluster perturbations). -/
def generate_pairs (p k : ℕ) (phisCenter thetasCenter : ℕ → ℝ)
    (phiDraw thetaDraw : ℕ → ℕ → ℕ → ℝ) : List (ℝ × ℝ) × List (ℝ × ℝ) :=
  let counts := nPairsPerCluster p k
  let dphi : ℝ := (180 - (-180)) / k
  let dtheta : ℝ := (90 - (-90)) / k
  let clusters := (sampledClusters k).map fun i =>
    generate_cluster (counts.getD i 0).toNat (phisCenter i) (thetasCenter i)
      dphi dtheta (phiDraw i) (thetaDraw i)
  ((clusters.map Prod.fst).flatten, (clusters.map Prod.snd).flatten)

/-- `haversine_distance(phis0, thetas0, phis1, thetas1, radius)`
(lines 98-132), with every elementwise array-array operation going through
`bcast`; scalar-array operations are plain maps. -/
def haversine_distance (phis0 thetas0 phis1 thetas1 : List ℝ) (radius : ℝ) :
    Option (List ℝ) :=
  (bcast (· - ·) phis0 phis1).bind fun d =>
    let dphis := d.map radians
    let t0 := thetas0.map radians
    let t1 := thetas1.map radians
    (bcast (· - ·) t1 t0).bind fun dthetas =>
      let root_term_0 := dthetas.map fun x => Real.sin (x / 2) ^ 2
      (bcast (· * ·) (t0.map Real.cos) (t1.map Real.cos)).bind fun cc =>
        (bcast (· * ·) cc (dphis.map fun x => Real.sin (x / 2) ^ 2)).bind
          fun root_term_1 =>
            (bcast (· + ·) root_term_0 root_term_1).map fun a =>
              a.map fun x => 2 * radius * Real.arcsin (Real.sqrt x)

end

/-! Helper lemmas about the pair-count partition. -/

lemma linspaceFloor_eq_div (p k j : ℕ) : linspaceFloor p k j = ((j * p) / k : ℕ) := by
  unfold linspaceFloor
  have h : ((j : ℚ) * p / k) = ((j * p : ℕ) : ℚ) / ((k : ℕ) : ℚ) := by push_cast; ring
  rw [h]
  have h0 : (0 : ℚ) ≤ ((j * p : ℕ) : ℚ) / ((k : ℕ) : ℚ) := by positivity
  rw [← Int.toNat_of_nonneg (Int.floor_nonneg.mpr h0), Int.floor_toNat,
    Nat.floor_div_eq_div]

lemma sum_map_range_sub (f : ℕ → ℤ) (n : ℕ) :
    ((List.range n).map (fun i => f (i + 1) - f i)).sum = f n - f 0 := by
  induction n with
  | zero => simp
  | succ n ih =>
    rw [List.range_succ, List.map_append, List.sum_append]
    simp [ih]

lemma sum_map_range_tsub (g : ℕ → ℕ) (hg : Monotone g) (n : ℕ) :
    ((List.range n).map (fun i => g (i + 1) - g i)).sum = g n - g 0 := by
  induction n with
  | zero => simp
  | succ n ih =>
    rw [List.range_succ, List.map_append, List.sum_append]
    have h1 : g n ≤ g (n + 1) := hg (Nat.le_succ n)
    have h2 : g 0 ≤ g n := hg (Nat.zero_le n)
    simp only [List.map_cons, List.map_nil, List.sum_cons, List.sum_nil, ih,
      Nat.succ_eq_add_one]
    omega

lemma nPairsPerCluster_length (p k : ℕ) : (nPairsPerCluster p k).length = k := by
  simp [nPairsPerCluster]

lemma nPairsPerCluster_getD (p k i : ℕ) (hik : i < k) :
    (nPairsPerCluster p k).getD i 0 =
      ((((i + 1) * p) / k : ℕ) : ℤ) - (((i * p) / k : ℕ) : ℤ) := by
  rw [nPairsPerCluster, List.getD_eq_getElem _ _ (by simpa using hik)]
  simp [linspaceFloor_eq_div]

lemma nPairsPerCluster_sum (p k : ℕ) (hk : 0 < k) :
    (nPairsPerCluster p k).sum = p := by
  rw [nPairsPerCluster]
  have h : (fun i => linspaceFloor p k (i + 1) - linspaceFloor p k i) =
      fun i => ((((i + 1) * p) / k : ℕ) : ℤ) - (((i * p) / k : ℕ) : ℤ) := by
    funext i; simp [linspaceFloor_eq_div]
  rw [h, sum_map_range_sub (fun j => (((j * p) / k : ℕ) : ℤ))]
  simp [Nat.mul_div_cancel_left p hk]

lemma nPairsPerCluster_nonneg (p k : ℕ) :
    ∀ c ∈ nPairsPerCluster p k, 0 ≤ c := by
  intro c hc
  simp only [nPairsPerCluster, List.mem_map, List.mem_range] at hc
  obtain ⟨i, _, rfl⟩ := hc
  simp only [linspaceFloor_eq_div, sub_nonneg]
  exact_mod_cast Nat.div_le_div_right (Nat.mul_le_mul_right p (Nat.le_succ i))

lemma count_eq_q_or_q_succ (p k i : ℕ) (hk : 0 < k) :
    ((i + 1) * p) / k - (i * p) / k = p / k ∨
      ((i + 1) * p) / k - (i * p) / k = p / k + 1 := by
  have h : (i + 1) * p = i * p + p := by ring
  rw [h, Nat.add_div hk]
  split
  · right
    generalize i * p / k = x
    generalize p / k = y
    omega
  · left
    generalize i * p / k = x
    generalize p / k = y
    omega

lemma first_count (p k : ℕ) (hk : 0 < k) :
    (nPairsPerCluster p k).getD 0 0 = ((p / k : ℕ) : ℤ) := by
  rw [nPairsPerCluster_getD p k 0 hk]
  simp

lemma div_succ_le (p k : ℕ) (hk : 0 < k) (hr : p % k ≠ 0) : p / k + 1 ≤ p := by
  have hq := (Nat.div_add_mod p k).symm
  have h5 : p / k ≤ k * (p / k) := Nat.le_mul_of_pos_left _ hk
  generalize hd : p / k = q at hq h5 ⊢
  generalize hm : p % k = r at hq hr
  omega

lemma last_count_div (p k : ℕ) (hk : 0 < k) (hr : p % k ≠ 0) :
    ((k - 1) * p) / k = p - p / k - 1 := by
  have hq := (Nat.div_add_mod p k).symm
  have hrk : p % k < k := Nat.mod_lt _ hk
  have hqp := div_succ_le p k hk hr
  generalize hd : p / k = q at hq hqp ⊢
  generalize hm : p % k = r at hq hrk hr
  have hk1 : 1 ≤ k := hk
  have h1 : 1 ≤ r := Nat.one_le_iff_ne_zero.mpr hr
  have key : (k - r) + k * (p - q - 1) = (k - 1) * p := by
    have h2 : q ≤ p := by omega
    have h3 : 1 ≤ p - q := by omega
    zify [le_of_lt hrk, h2, h3, hk1]
    have hq' : (p : ℤ) = k * q + r := by exact_mod_cast hq
    linear_combination hq'
  exact ((Nat.div_mod_unique hk).mpr ⟨key, by omega⟩).1

lemma last_count (p k : ℕ) (hk : 0 < k) (hr : p % k ≠ 0) :
    (nPairsPerCluster p k).getD (k - 1) 0 = ((p / k : ℕ) : ℤ) + 1 := by
  have hk1 : k - 1 + 1 = k := by omega
  rw [nPairsPerCluster_getD p k (k - 1) (by omega), hk1,
    Nat.mul_div_cancel_left p hk, last_count_div p k hk hr]
  have hqp := div_succ_le p k hk hr
  generalize p / k = q at hqp ⊢
  omega

/-! Helper lemmas about the sampler and the distance engine. -/

lemma clip_mem_Icc (x lo hi : ℝ) (h : lo ≤ hi) : clip x lo hi ∈ Set.Icc lo hi :=
  Set.mem_Icc.mpr ⟨le_min (le_max_right x lo) h, min_le_right _ _⟩

lemma generate_pairs_fst_length (p k : ℕ) (pc tc : ℕ → ℝ) (pd td : ℕ → ℕ → ℕ → ℝ) :
    (generate_pairs p k pc tc pd td).1.length =
      ((sampledClusters k).map
        (fun i => ((nPairsPerCluster p k).getD i 0).toNat)).sum := by
  simp only [generate_pairs, List.length_flatten, List.map_map]
  congr 1
  apply List.map_congr_left
  intro i _
  simp [generate_cluster]

lemma generate_pairs_snd_length (p k : ℕ) (pc tc : ℕ → ℝ) (pd td : ℕ → ℕ → ℕ → ℝ) :
    (generate_pairs p k pc tc pd td).2.length =
      ((sampledClusters k).map
        (fun i => ((nPairsPerCluster p k).getD i 0).toNat)).sum := by
  simp only [generate_pairs, List.length_flatten, List.map_map]
  congr 1
  apply List.map_congr_left
  intro i _
  simp [generate_cluster]

lemma bcast_eq_zipWith (f : ℝ → ℝ → ℝ) {xs ys : List ℝ} (h : xs.length = ys.length) :
    bcast f xs ys = some (List.zipWith f xs ys) := by
  simp [bcast, h]

lemma haversine_pointwise (P0 T0 P1 T1 : List ℝ) (r : ℝ)
    (h1 : T0.length = P0.length) (h2 : P1.length = P0.length)
    (h3 : T1.length = P0.length) :
    ∃ ds : List ℝ, haversine_distance P0 T0 P1 T1 r = some ds ∧
      ds.length = P0.length ∧
      ∀ i, i < P0.length → ds.getD i 0 =
        2 * r * Real.arcsin (Real.sqrt
          (Real.sin ((radians (T1.getD i 0) - radians (T0.getD i 0)) / 2) ^ 2 +
           Real.cos (radians (T0.getD i 0)) * Real.cos (radians (T1.getD i 0)) *
             Real.sin (radians (P0.getD i 0 - P1.getD i 0) / 2) ^ 2)) := by
  rw [haversine_distance, bcast_eq_zipWith _ (by omega)]
  simp only [Option.some_bind]
  rw [bcast_eq_zipWith _ (by (try simp only [List.length_zipWith, List.length_map]); omega)]
  simp only [Option.some_bind]
  rw [bcast_eq_zipWith _ (by (try simp only [List.length_zipWith, List.length_map]); omega)]
  simp only [Option.some_bind]
  rw [bcast_eq_zipWith _ (by (try simp only [List.length_zipWith, List.length_map]); omega)]
  simp only [Option.some_bind]
  rw [bcast_eq_zipWith _ (by (try simp only [List.length_zipWith, List.length_map]); omega)]
  simp only [Option.some_bind, Option.map_some, Option.map_some']
  refine ⟨_, rfl,
    by (try simp only [List.length_zipWith, List.length_map]); omega, ?_⟩
  intro i hi
  rw [List.getD_eq_getElem _ _
      (by (try simp only [List.length_zipWith, List.length_map]); omega),
    List.getD_eq_getElem _ _ (by omega : i < T1.length),
    List.getD_eq_getElem _ _ (by omega : i < T0.length),
    List.getD_eq_getElem _ _ (by omega : i < P0.length),
    List.getD_eq_getElem _ _ (by omega : i < P1.length)]
  simp [List.getElem_zipWith, List.getElem_map]

lemma sin_half_sq_neg (x : ℝ) : Real.sin (-x / 2) ^ 2 = Real.sin (x / 2) ^ 2 := by
  rw [neg_div, Real.sin_neg, neg_sq]

/-- The reading of the partition asserted by claim C5: whenever counts are
unequal, the larger counts sit at earlier cluster positions — i.e. the count
list is non-increasing along the cluster index. -/
def largerCountsEarlier (l : List ℤ) : Prop :=
  ∀ i j : ℕ, i ≤ j → j < l.length → l.getD j 0 ≤ l.getD i 0

/-- Claim C1: for every n_pairs and every n_clusters at least 1,
generate_pairs samples from exactly max(n_clusters, 2) - 1 clusters; the
count array has n_clusters entries, the loop (over sampledClusters) covers
indices 0 .. n_clusters - 2 when n_clusters is at least 2 (skipping the last
partitioned cluster), and covers exactly index 0 when n_clusters = 1. -/
theorem claim_C1 (p k : ℕ) (hk : 1 ≤ k) :
    (sampledClusters k).length = max k 2 - 1 ∧
    (nPairsPerCluster p k).length = k ∧
    (2 ≤ k → sampledClusters k = List.range (k - 1) ∧
      (k - 1) ∉ sampledClusters k) ∧
    (k = 1 → sampledClusters k = [0]) := by
  refine ⟨?_, nPairsPerCluster_length p k, ?_, ?_⟩
  · by_cases h : k = 1
    · subst h; simp [sampledClusters]
    · simp only [sampledClusters, if_neg h, List.length_range]
      omega
  · intro h2
    have hne : ¬ k = 1 := by omega
    exact ⟨by simp [sampledClusters, hne], by simp [sampledClusters, hne]⟩
  · intro h1
    subst h1
    simp only [sampledClusters, if_pos rfl]
    rfl

/-- Witness for claim C1 at p = 4, k = 3. -/
theorem claim_C1_witness :
    1 ≤ 3 ∧
    ((sampledClusters 3).length = max 3 2 - 1 ∧
     (nPairsPerCluster 4 3).length = 3 ∧
     (2 ≤ 3 → sampledClusters 3 = List.range (3 - 1) ∧
       (3 - 1) ∉ sampledClusters 3) ∧
     (3 = 1 → sampledClusters 3 = [0])) :=
  ⟨by norm_num, claim_C1 4 3 (by norm_num)⟩

/-- Claim C4: for every n_pairs and every n_clusters at least 1, the
per-cluster pair counts are non-negative and sum to exactly n_pairs. -/
theorem claim_C4 (p k : ℕ) (hk : 1 ≤ k) :
    (∀ c ∈ nPairsPerCluster p k, 0 ≤ c) ∧
    (nPairsPerCluster p k).sum = (p : ℤ) :=
  ⟨nPairsPerCluster_nonneg p k, nPairsPerCluster_sum p k hk⟩

/-- Witness for claim C4 at p = 5, k = 3. -/
theorem claim_C4_witness :
    1 ≤ 3 ∧
    ((∀ c ∈ nPairsPerCluster 5 3, 0 ≤ c) ∧
     (nPairsPerCluster 5 3).sum = (5 : ℤ)) :=
  ⟨by norm_num, claim_C4 5 3 (by norm_num)⟩

/-- Counterexample to claim C5 as stated: at n_pairs = 5, n_clusters = 3 the
counts are [1, 2, 2], so a larger count sits at a later position — the
remainder is not absorbed by earlier clusters. -/
theorem claim_C5_counterexample :
    ¬ largerCountsEarlier (nPairsPerCluster 5 3) := by
  intro h
  have h01 := h 0 1 (by norm_num) (by rw [nPairsPerCluster_length]; norm_num)
  rw [nPairsPerCluster_getD 5 3 1 (by norm_num),
    nPairsPerCluster_getD 5 3 0 (by norm_num)] at h01
  norm_num at h01

/-- Claim C5 (amended): any remainder is absorbed by later clusters, not
earlier ones — every count is floor(p/k) or floor(p/k) + 1, the first
cluster always receives the minimum floor(p/k), and whenever the counts are
unequal (p % k nonzero) the last cluster receives the maximum
floor(p/k) + 1. -/
theorem claim_C5 (p k : ℕ) (hk : 1 ≤ k) :
    (∀ c ∈ nPairsPerCluster p k,
        c = ((p / k : ℕ) : ℤ) ∨ c = ((p / k : ℕ) : ℤ) + 1) ∧
    (nPairsPerCluster p k).getD 0 0 = ((p / k : ℕ) : ℤ) ∧
    (p % k ≠ 0 →
      (nPairsPerCluster p k).getD (k - 1) 0 = ((p / k : ℕ) : ℤ) + 1) := by
  have hk0 : 0 < k := hk
  refine ⟨?_, first_count p k hk0, fun hr => last_count p k hk0 hr⟩
  intro c hc
  simp only [nPairsPerCluster, List.mem_map, List.mem_range] at hc
  obtain ⟨i, hik, rfl⟩ := hc
  have hle : (i * p) / k ≤ ((i + 1) * p) / k :=
    Nat.div_le_div_right (Nat.mul_le_mul_right p (Nat.le_succ i))
  simp only [linspaceFloor_eq_div]
  rcases count_eq_q_or_q_succ p k i hk0 with h | h
  · left; omega
  · right; omega

/-- Witness for the amended claim C5 at p = 5, k = 3. -/
theorem claim_C5_witness :
    1 ≤ 3 ∧
    ((∀ c ∈ nPairsPerCluster 5 3,
        c = ((5 / 3 : ℕ) : ℤ) ∨ c = ((5 / 3 : ℕ) : ℤ) + 1) ∧
     (nPairsPerCluster 5 3).getD 0 0 = ((5 / 3 : ℕ) : ℤ) ∧
     (5 % 3 ≠ 0 →
       (nPairsPerCluster 5 3).getD (3 - 1) 0 = ((5 / 3 : ℕ) : ℤ) + 1)) :=
  ⟨by norm_num, claim_C5 5 3 (by norm_num)⟩

/-- Counterexample to claim C6 as stated: at n_pairs = 1, n_clusters = 1 the
partition allocates 1 pair to the single cluster, and generate_pairs does
emit that pair (the output has length 1, not 0). -/
theorem claim_C6_counterexample :
    nPairsPerCluster 1 1 = [1] ∧
    (generate_pairs 1 1 (fun _ => 0) (fun _ => 0) (fun _ _ _ => 0)
      (fun _ _ _ => 0)).1.length = 1 := by
  constructor
  · simp only [nPairsPerCluster, linspaceFloor_eq_div]
    norm_num
  · rw [generate_pairs_fst_length]
    have h : sampledClusters 1 = [0] := by
      simp only [sampledClusters, if_pos rfl]; rfl
    rw [h]
    simp only [List.map_cons, List.map_nil, List.sum_cons, List.sum_nil]
    rw [first_count 1 1 one_pos]
    norm_num

/-- Claim C6 (amended): when n_clusters = 1 the loop runs as if there were 2
clusters and so samples the single cluster exactly once; generate_pairs
emits exactly the n_pairs pairs allocated to that cluster — nothing is
dropped. -/
theorem claim_C6 (p : ℕ) (pc tc : ℕ → ℝ) (pd td : ℕ → ℕ → ℕ → ℝ) :
    (generate_pairs p 1 pc tc pd td).1.length = p ∧
    (generate_pairs p 1 pc tc pd td).2.length = p := by
  have h : sampledClusters 1 = [0] := by
    simp only [sampledClusters, if_pos rfl]; rfl
  have hsum : ((sampledClusters 1).map
      (fun i => ((nPairsPerCluster p 1).getD i 0).toNat)).sum = p := by
    rw [h]
    simp only [List.map_cons, List.map_nil, List.sum_cons, List.sum_nil]
    rw [first_count p 1 one_pos]
    simp [Nat.div_one]
  exact ⟨by rw [generate_pairs_fst_length, hsum],
    by rw [generate_pairs_snd_length, hsum]⟩

/-- Claim C10: for n_clusters at least 2, the total number of pairs emitted
by generate_pairs is exactly floor(n_pairs * (n_clusters - 1) / n_clusters),
the sum of the first n_clusters - 1 partition counts. -/
theorem claim_C10 (p k : ℕ) (hk : 2 ≤ k) (pc tc : ℕ → ℝ)
    (pd td : ℕ → ℕ → ℕ → ℝ) :
    (generate_pairs p k pc tc pd td).1.length = ((k - 1) * p) / k ∧
    (generate_pairs p k pc tc pd td).2.length = ((k - 1) * p) / k := by
  have hsc : sampledClusters k = List.range (k - 1) := by
    simp only [sampledClusters, if_neg (by omega : ¬ k = 1)]
  have hmap : (List.range (k - 1)).map
      (fun i => ((nPairsPerCluster p k).getD i 0).toNat) =
      (List.range (k - 1)).map (fun i => ((i + 1) * p) / k - (i * p) / k) := by
    apply List.map_congr_left
    intro i hi
    simp only [List.mem_range] at hi
    rw [nPairsPerCluster_getD p k i (by omega), Int.toNat_sub]
  have hmono : Monotone (fun j => (j * p) / k) := fun a b hab =>
    Nat.div_le_div_right (Nat.mul_le_mul_right p hab)
  have hsum : ((sampledClusters k).map
      (fun i => ((nPairsPerCluster p k).getD i 0).toNat)).sum =
      ((k - 1) * p) / k := by
    rw [hsc, hmap, sum_map_range_tsub (fun j => (j * p) / k) hmono (k - 1)]
    simp
  exact ⟨by rw [generate_pairs_fst_length, hsum],
    by rw [generate_pairs_snd_length, hsum]⟩

/-- Witness for claim C10 at p = 5, k = 3 with an all-zero random source. -/
theorem claim_C10_witness :
    2 ≤ 3 ∧
    ((generate_pairs 5 3 (fun _ => 0) (fun _ => 0) (fun _ _ _ => 0)
        (fun _ _ _ => 0)).1.length = ((3 - 1) * 5) / 3 ∧
     (generate_pairs 5 3 (fun _ => 0) (fun _ => 0) (fun _ _ _ => 0)
        (fun _ _ _ => 0)).2.length = ((3 - 1) * 5) / 3) :=
  ⟨by norm_num, claim_C10 5 3 (by norm_num) (fun _ => 0) (fun _ => 0)
    (fun _ _ _ => 0) (fun _ _ _ => 0)⟩

lemma generate_cluster_fst_mem (n : ℕ) (phi theta dphi dtheta : ℝ)
    (pdr tdr : ℕ → ℕ → ℝ) :
    ∀ q ∈ (generate_cluster n phi theta dphi dtheta pdr tdr).1,
      q.1 ∈ Set.Icc (-180 : ℝ) 180 ∧ q.2 ∈ Set.Icc (-180 : ℝ) 180 := by
  intro q hq
  simp only [generate_cluster, List.mem_map, List.mem_range] at hq
  obtain ⟨j, _, rfl⟩ := hq
  exact ⟨clip_mem_Icc _ _ _ (by norm_num), clip_mem_Icc _ _ _ (by norm_num)⟩

lemma generate_cluster_snd_mem (n : ℕ) (phi theta dphi dtheta : ℝ)
    (pdr tdr : ℕ → ℕ → ℝ) :
    ∀ q ∈ (generate_cluster n phi theta dphi dtheta pdr tdr).2,
      q.1 ∈ Set.Icc (-90 : ℝ) 90 ∧ q.2 ∈ Set.Icc (-90 : ℝ) 90 := by
  intro q hq
  simp only [generate_cluster, List.mem_map, List.mem_range] at hq
  obtain ⟨j, _, rfl⟩ := hq
  exact ⟨clip_mem_Icc _ _ _ (by norm_num), clip_mem_Icc _ _ _ (by norm_num)⟩

/-- Claim C3: for every n_pairs, every n_clusters at least 1 and every
random source, each coordinate emitted by generate_pairs has longitude in
[-180, 180] and latitude in [-90, 90]; the bound needs no assumption on the
perturbation draws because it comes from clamping, not rejection. -/
theorem claim_C3 (p k : ℕ) (hk : 1 ≤ k) (pc tc : ℕ → ℝ)
    (pd td : ℕ → ℕ → ℕ → ℝ) :
    (∀ q ∈ (generate_pairs p k pc tc pd td).1,
        q.1 ∈ Set.Icc (-180 : ℝ) 180 ∧ q.2 ∈ Set.Icc (-180 : ℝ) 180) ∧
    (∀ q ∈ (generate_pairs p k pc tc pd td).2,
        q.1 ∈ Set.Icc (-90 : ℝ) 90 ∧ q.2 ∈ Set.Icc (-90 : ℝ) 90) := by
  constructor
  · intro q hq
    simp only [generate_pairs, List.map_map, List.mem_flatten,
      List.mem_map] at hq
    obtain ⟨l, ⟨i, hi, rfl⟩, hql⟩ := hq
    exact generate_cluster_fst_mem _ _ _ _ _ _ _ q hql
  · intro q hq
    simp only [generate_pairs, List.map_map, List.mem_flatten,
      List.mem_map] at hq
    obtain ⟨l, ⟨i, hi, rfl⟩, hql⟩ := hq
    exact generate_cluster_snd_mem _ _ _ _ _ _ _ q hql

/-- Witness for claim C3 at p = 1, k = 1 with an all-zero random source. -/
theorem claim_C3_witness :
    1 ≤ 1 ∧
    ((∀ q ∈ (generate_pairs 1 1 (fun _ => 0) (fun _ => 0) (fun _ _ _ => 0)
        (fun _ _ _ => 0)).1,
        q.1 ∈ Set.Icc (-180 : ℝ) 180 ∧ q.2 ∈ Set.Icc (-180 : ℝ) 180) ∧
     (∀ q ∈ (generate_pairs 1 1 (fun _ => 0) (fun _ => 0) (fun _ _ _ => 0)
        (fun _ _ _ => 0)).2,
        q.1 ∈ Set.Icc (-90 : ℝ) 90 ∧ q.2 ∈ Set.Icc (-90 : ℝ) 90)) :=
  ⟨le_refl 1, claim_C3 1 1 (le_refl 1) (fun _ => 0) (fun _ => 0)
    (fun _ _ _ => 0) (fun _ _ _ => 0)⟩

/-- Claim C2: for aligned coordinate lists, haversine_distance returns one
distance per aligned pair, each equal to
2 * radius * asin(sqrt(sin((theta1rad - theta0rad)/2)^2 +
cos(theta0rad) * cos(theta1rad) * sin(radians(phi0 - phi1)/2)^2)). -/
theorem claim_C2 (P0 T0 P1 T1 : List ℝ) (r : ℝ)
    (h1 : T0.length = P0.length) (h2 : P1.length = P0.length)
    (h3 : T1.length = P0.length) :
    ∃ ds : List ℝ, haversine_distance P0 T0 P1 T1 r = some ds ∧
      ds.length = P0.length ∧
      ∀ i, i < P0.length → ds.getD i 0 =
        2 * r * Real.arcsin (Real.sqrt
          (Real.sin ((radians (T1.getD i 0) - radians (T0.getD i 0)) / 2) ^ 2 +
           Real.cos (radians (T0.getD i 0)) * Real.cos (radians (T1.getD i 0)) *
             Real.sin (radians (P0.getD i 0 - P1.getD i 0) / 2) ^ 2)) :=
  haversine_pointwise P0 T0 P1 T1 r h1 h2 h3

/-- Witness for claim C2 on the single pair (10, 20) - (30, 40), radius 2. -/
theorem claim_C2_witness :
    ([(20 : ℝ)].length = [(10 : ℝ)].length) ∧
    ([(30 : ℝ)].length = [(10 : ℝ)].length) ∧
    ([(40 : ℝ)].length = [(10 : ℝ)].length) ∧
    (∃ ds : List ℝ, haversine_distance [10] [20] [30] [40] 2 = some ds ∧
      ds.length = [(10 : ℝ)].length ∧
      ∀ i, i < [(10 : ℝ)].length → ds.getD i 0 =
        2 * 2 * Real.arcsin (Real.sqrt
          (Real.sin ((radians ([(40 : ℝ)].getD i 0) -
              radians ([(20 : ℝ)].getD i 0)) / 2) ^ 2 +
           Real.cos (radians ([(20 : ℝ)].getD i 0)) *
             Real.cos (radians ([(40 : ℝ)].getD i 0)) *
             Real.sin (radians ([(10 : ℝ)].getD i 0 -
               [(30 : ℝ)].getD i 0) / 2) ^ 2))) :=
  ⟨rfl, rfl, rfl, claim_C2 [10] [20] [30] [40] 2 rfl rfl rfl⟩

/-- Claim C7: haversine_distance is symmetric — swapping the roles of
(phis0, thetas0) and (phis1, thetas1) yields the same distances. -/
theorem claim_C7 (P0 T0 P1 T1 : List ℝ) (r : ℝ)
    (h1 : T0.length = P0.length) (h2 : P1.length = P0.length)
    (h3 : T1.length = P0.length) :
    haversine_distance P0 T0 P1 T1 r = haversine_distance P1 T1 P0 T0 r := by
  obtain ⟨ds, hds, hlen, hpt⟩ := haversine_pointwise P0 T0 P1 T1 r h1 h2 h3
  obtain ⟨es, hes, hlen2, hpt2⟩ :=
    haversine_pointwise P1 T1 P0 T0 r (by omega) (by omega) (by omega)
  rw [hds, hes]
  congr 1
  apply List.ext_getElem (by omega)
  intro n hn1 hn2
  have e1 := hpt n (by omega)
  have e2 := hpt2 n (by omega)
  rw [List.getD_eq_getElem _ _ hn1] at e1
  rw [List.getD_eq_getElem _ _ hn2] at e2
  rw [e1, e2]
  have hphi : radians (P1.getD n 0 - P0.getD n 0) =
      -(radians (P0.getD n 0 - P1.getD n 0)) := by
    simp only [radians]; ring
  have htheta : radians (T0.getD n 0) - radians (T1.getD n 0) =
      -(radians (T1.getD n 0) - radians (T0.getD n 0)) := by ring
  rw [hphi, htheta, sin_half_sq_neg, sin_half_sq_neg]
  ring_nf

/-- Witness for claim C7 on the single pair (10, 20) - (30, 40), radius 5. -/
theorem claim_C7_witness :
    ([(20 : ℝ)].length = [(10 : ℝ)].length) ∧
    ([(30 : ℝ)].length = [(10 : ℝ)].length) ∧
    ([(40 : ℝ)].length = [(10 : ℝ)].length) ∧
    haversine_distance [10] [20] [30] [40] 5 =
      haversine_distance [30] [40] [10] [20] 5 :=
  ⟨rfl, rfl, rfl, claim_C7 [10] [20] [30] [40] 5 rfl rfl rfl⟩

/-- Counterexample to claim C9 as stated: longitude arrays of lengths 2 and
1 are mismatched, yet numpy broadcasting pairs the singleton with every
element and haversine_distance returns a full result, not a failure. -/
theorem claim_C9_counterexample :
    ([(0 : ℝ), 0].length ≠ [(0 : ℝ)].length) ∧
    haversine_distance [0, 0] [0, 0] [0] [0] 1 = some [0, 0] := by
  refine ⟨by norm_num, ?_⟩
  norm_num [haversine_distance, bcast, radians, List.headI,
    Real.sqrt_zero, Real.arcsin_zero]

/-- Claim C9 (amended): haversine_distance fails fast — producing no
distances at all — when the longitude arrays have mismatched lengths and
neither has length 1; a mismatched length-1 array is instead broadcast,
producing full-length results (see the counterexample). -/
theorem claim_C9 (P0 T0 P1 T1 : List ℝ) (r : ℝ)
    (hne : P0.length ≠ P1.length) (h0 : P0.length ≠ 1)
    (h1 : P1.length ≠ 1) :
    haversine_distance P0 T0 P1 T1 r = none := by
  rw [haversine_distance]
  have hb : bcast (· - ·) P0 P1 = none := by
    simp [bcast, hne, h0, h1]
  rw [hb]
  rfl

/-- Witness for the amended claim C9: lengths 2 and 3. -/
theorem claim_C9_witness :
    ([(0 : ℝ), 0].length ≠ [(0 : ℝ), 0, 0].length) ∧
    ([(0 : ℝ), 0].length ≠ 1) ∧
    ([(0 : ℝ), 0, 0].length ≠ 1) ∧
    haversine_distance [0, 0] [0] [0, 0, 0] [0] 1 = none :=
  ⟨by norm_num, by norm_num, by norm_num,
    claim_C9 [0, 0] [0] [0, 0, 0] [0] 1 (by norm_num) (by norm_num)
      (by norm_num)⟩

end Gendata
